import Mathlib

/-!
Verification of the template-selection and block-composition logic of the
jupyter_helpers repository (file term_magic.py).  The Python functions
`_render`, `_select_template_block`, `_select_template_section`,
`_blank_mapping` and the `terms` line magic are shallowly embedded as
executable Lean functions over lists of characters, and the documented
properties are proved about these embeddings.
-/

set_option maxHeartbeats 1000000
set_option maxRecDepth 4000

namespace JupyterHelpers

/-- The whitespace characters recognised by the Python str.strip family
(space, tab, newline, carriage return, vertical tab, form feed). -/
def pyWsChars : List Char := [' ', '\t', '\n', '\r', '\x0B', '\x0C']

/-- Python whitespace test for a character. -/
def isPyWs (c : Char) : Bool := decide (c ∈ pyWsChars)

/-- Python str.strip on a list of characters. -/
def pyStripChars (l : List Char) : List Char :=
  ((l.dropWhile isPyWs).reverse.dropWhile isPyWs).reverse

/-- Python str.rstrip on a list of characters. -/
def pyRstripChars (l : List Char) : List Char :=
  (l.reverse.dropWhile isPyWs).reverse

/-- Python str.strip. -/
def pyStrip (s : String) : String := String.mk (pyStripChars s.data)

/-- Python str.rstrip. -/
def pyRstrip (s : String) : String := String.mk (pyRstripChars s.data)

/-- A substitution mapping, as the Python dict passed to `_render`:
an association list from placeholder keys to replacement values. -/
abbrev Mapping := List (List Char × List Char)

/-- First-match association lookup (the semantics of Python dict lookup,
on an association list whose earlier entries shadow later ones). -/
def alookup (k : List Char) : Mapping → Option (List Char)
  | [] => none
  | (k', v) :: rest => if k' = k then some v else alookup k rest

/-- The re-escaped placeholder for a key: the double-brace delimited text
that `_render` produces for a key with no supplied value. -/
def braceWrap (k : List Char) : List Char := '{' :: '{' :: (k ++ ['}', '}'])

/-- The replacement text used by `_render` for a (stripped) key:
`mapping.get(key, "\x7b\x7b" + key + "\x7d\x7d")`. -/
def mval (m : Mapping) (k : List Char) : List Char := (alookup k m).getD (braceWrap k)

/-- Character test used by the placeholder scanner: anything except a
closing brace may appear inside a placeholder. -/
def notClose (c : Char) : Bool := c != '}'

/-- Fuel-indexed scanner implementing the semantics of
`re.sub(r"\x7b\x7b\s*([^\x7d]+)\s*\x7d\x7d", repl, template)` from `_render`:
at a double opening brace, the characters up to the first closing brace form
the raw content; if that content is nonempty and is followed by a double
closing brace, the whole placeholder is replaced by `mval` of the stripped
content and scanning resumes after it; otherwise scanning advances one
character.  One unit of fuel is spent per step; since every step consumes at
least one input character, `s.length` fuel always suffices. -/
def renderF (m : Mapping) : Nat → List Char → List Char
  | 0, s => s
  | _ + 1, [] => []
  | fuel + 1, c :: rest =>
    if c = '{' ∧ rest.head? = some '{' then
      let r2 := rest.tail
      let cnt := r2.takeWhile notClose
      let a := r2.dropWhile notClose
      if cnt ≠ [] ∧ a.take 2 = ['}', '}'] then
        mval m (pyStripChars cnt) ++ renderF m fuel (a.drop 2)
      else
        '{' :: renderF m fuel rest
    else
      c :: renderF m fuel rest

/-- `_render` on character lists. -/
def render (m : Mapping) (s : List Char) : List Char := renderF m s.length s

/-- `_render(template, mapping)` on strings. -/
def renderStr (tmpl : String) (m : Mapping) : String := String.mk (render m tmpl.data)

/-! ### Basic facts about the scanner -/

theorem length_dropWhile_le' (p : α → Bool) (l : List α) :
    (l.dropWhile p).length ≤ l.length := by
  induction l with
  | nil => simp [List.dropWhile]
  | cons x xs ih =>
    by_cases h : p x
    · simp [List.dropWhile_cons_of_pos h]; omega
    · simp [List.dropWhile_cons_of_neg h]

theorem renderF_nil (m : Mapping) (fuel : Nat) : renderF m fuel [] = [] := by
  cases fuel <;> rfl

theorem renderF_succ_cons (m : Mapping) (fuel : Nat) (c : Char) (rest : List Char) :
    renderF m (fuel + 1) (c :: rest) =
      if c = '{' ∧ rest.head? = some '{' then
        if rest.tail.takeWhile notClose ≠ [] ∧
            (rest.tail.dropWhile notClose).take 2 = ['}', '}'] then
          mval m (pyStripChars (rest.tail.takeWhile notClose)) ++
            renderF m fuel ((rest.tail.dropWhile notClose).drop 2)
        else
          '{' :: renderF m fuel rest
      else
        c :: renderF m fuel rest := rfl

theorem renderF_congr (m : Mapping) :
    ∀ f₁ f₂ s, s.length ≤ f₁ → s.length ≤ f₂ → renderF m f₁ s = renderF m f₂ s := by
  intro f₁
  induction f₁ with
  | zero =>
    intro f₂ s h₁ _
    have : s = [] := List.length_eq_zero.mp (Nat.le_zero.mp h₁)
    subst this
    rw [renderF_nil, renderF_nil]
  | succ f ih =>
    intro f₂ s h₁ h₂
    cases s with
    | nil => rw [renderF_nil, renderF_nil]
    | cons c rest =>
      cases f₂ with
      | zero => simp at h₂
      | succ g =>
        rw [renderF_succ_cons, renderF_succ_cons]
        by_cases hc : c = '{' ∧ rest.head? = some '{'
        · simp only [if_pos hc]
          have hrest : rest.length ≤ f := by simpa using h₁
          have hrest' : rest.length ≤ g := by simpa using h₂
          have htail : (rest.tail.dropWhile notClose).length ≤ rest.length := by
            calc (rest.tail.dropWhile notClose).length
                ≤ rest.tail.length := length_dropWhile_le' _ _
              _ ≤ rest.length := by cases rest <;> simp
          by_cases hin : rest.tail.takeWhile notClose ≠ [] ∧
              (rest.tail.dropWhile notClose).take 2 = ['}', '}']
          · simp only [if_pos hin]
            have hd : ((rest.tail.dropWhile notClose).drop 2).length ≤ rest.length := by
              have := htail
              simp only [List.length_drop]
              omega
            rw [ih g _ (le_trans hd hrest) (le_trans hd hrest')]
          · simp only [if_neg hin]
            rw [ih g rest hrest hrest']
        · simp only [if_neg hc]
          have hrest : rest.length ≤ f := by simpa using h₁
          have hrest' : rest.length ≤ g := by simpa using h₂
          rw [ih g rest hrest hrest']

theorem renderF_eq_render (m : Mapping) (fuel : Nat) (s : List Char)
    (h : s.length ≤ fuel) : renderF m fuel s = render m s :=
  renderF_congr m fuel s.length s h le_rfl

/-- Step equation: at a position that does not start a double brace, the
scanner copies the character. -/
theorem render_not_open (m : Mapping) (c : Char) (rest : List Char)
    (h : ¬(c = '{' ∧ rest.head? = some '{')) :
    render m (c :: rest) = c :: render m rest := by
  show renderF m (rest.length + 1) (c :: rest) = c :: render m rest
  rw [renderF_succ_cons, if_neg h]
  rfl

/-- Step equation: a double brace with no matching placeholder close emits a
single opening brace and rescans from the second opening brace. -/
theorem render_fail (m : Mapping) (r2 : List Char)
    (h : ¬(r2.takeWhile notClose ≠ [] ∧ (r2.dropWhile notClose).take 2 = ['}', '}'])) :
    render m ('{' :: '{' :: r2) = '{' :: render m ('{' :: r2) := by
  show renderF m (r2.length + 1 + 1) ('{' :: '{' :: r2) = _
  rw [renderF_succ_cons, if_pos (by simp)]
  simp only [List.tail_cons, if_neg h]
  rfl

/-- Step equation: a complete placeholder is replaced by `mval` of its
stripped content, and scanning resumes after the double closing brace. -/
theorem render_succ (m : Mapping) (r2 : List Char)
    (hne : r2.takeWhile notClose ≠ []) (h2 : (r2.dropWhile notClose).take 2 = ['}', '}']) :
    render m ('{' :: '{' :: r2) =
      mval m (pyStripChars (r2.takeWhile notClose)) ++
        render m ((r2.dropWhile notClose).drop 2) := by
  show renderF m (r2.length + 1 + 1) ('{' :: '{' :: r2) = _
  rw [renderF_succ_cons, if_pos (by simp)]
  simp only [List.tail_cons, if_pos (And.intro hne h2)]
  congr 1
  refine renderF_eq_render m _ _ ?_
  have := length_dropWhile_le' notClose r2
  simp only [List.length_drop]
  omega

/-! ### Token view of the scanner

The scanner of `_render` is refactored as a tokenizer producing literal
characters and placeholders (with their raw, unstripped content), followed
by a per-token emission step.  This lets occurrence-level statements
(every placeholder with a given key receives a given value) be expressed. -/

/-- A token of the placeholder scanner: a literal character, or a
placeholder with the raw (unstripped) content found between the braces. -/
inductive Tok where
  | lit (c : Char)
  | ph (raw : List Char)
deriving DecidableEq

/-- Fuel-indexed tokenizer with exactly the step structure of `renderF`. -/
def scanF : Nat → List Char → List Tok
  | 0, _ => []
  | _ + 1, [] => []
  | fuel + 1, c :: rest =>
    if c = '{' ∧ rest.head? = some '{' then
      if rest.tail.takeWhile notClose ≠ [] ∧
          (rest.tail.dropWhile notClose).take 2 = ['}', '}'] then
        .ph (rest.tail.takeWhile notClose) :: scanF fuel ((rest.tail.dropWhile notClose).drop 2)
      else
        .lit '{' :: scanF fuel rest
    else
      .lit c :: scanF fuel rest

/-- The tokenization of a template. -/
def scanToks (s : List Char) : List Tok := scanF s.length s

/-- Emission of one token under a substitution mapping: literals are copied
and a placeholder becomes `mval` of its stripped content. -/
def emitTok (m : Mapping) : Tok → List Char
  | .lit c => [c]
  | .ph raw => mval m (pyStripChars raw)

theorem scanF_nil (fuel : Nat) : scanF fuel [] = [] := by
  cases fuel <;> rfl

theorem scanF_succ_cons (fuel : Nat) (c : Char) (rest : List Char) :
    scanF (fuel + 1) (c :: rest) =
      if c = '{' ∧ rest.head? = some '{' then
        if rest.tail.takeWhile notClose ≠ [] ∧
            (rest.tail.dropWhile notClose).take 2 = ['}', '}'] then
          .ph (rest.tail.takeWhile notClose) ::
            scanF fuel ((rest.tail.dropWhile notClose).drop 2)
        else
          .lit '{' :: scanF fuel rest
      else
        .lit c :: scanF fuel rest := rfl

theorem scanF_congr :
    ∀ f₁ f₂ s, s.length ≤ f₁ → s.length ≤ f₂ → scanF f₁ s = scanF f₂ s := by
  intro f₁
  induction f₁ with
  | zero =>
    intro f₂ s h₁ _
    have : s = [] := List.length_eq_zero.mp (Nat.le_zero.mp h₁)
    subst this
    rw [scanF_nil, scanF_nil]
  | succ f ih =>
    intro f₂ s h₁ h₂
    cases s with
    | nil => rw [scanF_nil, scanF_nil]
    | cons c rest =>
      cases f₂ with
      | zero => simp at h₂
      | succ g =>
        rw [scanF_succ_cons, scanF_succ_cons]
        by_cases hc : c = '{' ∧ rest.head? = some '{'
        · simp only [if_pos hc]
          have hrest : rest.length ≤ f := by simpa using h₁
          have hrest' : rest.length ≤ g := by simpa using h₂
          have htail : (rest.tail.dropWhile notClose).length ≤ rest.length := by
            calc (rest.tail.dropWhile notClose).length
                ≤ rest.tail.length := length_dropWhile_le' _ _
              _ ≤ rest.length := by cases rest <;> simp
          by_cases hin : rest.tail.takeWhile notClose ≠ [] ∧
              (rest.tail.dropWhile notClose).take 2 = ['}', '}']
          · simp only [if_pos hin]
            have hd : ((rest.tail.dropWhile notClose).drop 2).length ≤ rest.length := by
              simp only [List.length_drop]
              omega
            rw [ih g _ (le_trans hd hrest) (le_trans hd hrest')]
          · simp only [if_neg hin]
            rw [ih g rest hrest hrest']
        · simp only [if_neg hc]
          have hrest : rest.length ≤ f := by simpa using h₁
          have hrest' : rest.length ≤ g := by simpa using h₂
          rw [ih g rest hrest hrest']

theorem scanF_eq_scanToks (fuel : Nat) (s : List Char)
    (h : s.length ≤ fuel) : scanF fuel s = scanToks s :=
  scanF_congr fuel s.length s h le_rfl

theorem scanToks_not_open (c : Char) (rest : List Char)
    (h : ¬(c = '{' ∧ rest.head? = some '{')) :
    scanToks (c :: rest) = .lit c :: scanToks rest := by
  show scanF (rest.length + 1) (c :: rest) = _
  rw [scanF_succ_cons, if_neg h]
  rfl

theorem scanToks_fail (r2 : List Char)
    (h : ¬(r2.takeWhile notClose ≠ [] ∧ (r2.dropWhile notClose).take 2 = ['}', '}'])) :
    scanToks ('{' :: '{' :: r2) = .lit '{' :: scanToks ('{' :: r2) := by
  show scanF (r2.length + 1 + 1) ('{' :: '{' :: r2) = _
  rw [scanF_succ_cons, if_pos (by simp)]
  simp only [List.tail_cons, if_neg h]
  rfl

theorem scanToks_succ (r2 : List Char)
    (hne : r2.takeWhile notClose ≠ []) (h2 : (r2.dropWhile notClose).take 2 = ['}', '}']) :
    scanToks ('{' :: '{' :: r2) =
      .ph (r2.takeWhile notClose) :: scanToks ((r2.dropWhile notClose).drop 2) := by
  show scanF (r2.length + 1 + 1) ('{' :: '{' :: r2) = _
  rw [scanF_succ_cons, if_pos (by simp)]
  simp only [List.tail_cons, if_pos (And.intro hne h2)]
  congr 1
  refine scanF_eq_scanToks _ _ ?_
  have := length_dropWhile_le' notClose r2
  simp only [List.length_drop]
  omega

/-- The rendering of `_render` is the concatenation of the emissions of the
tokens of the template. -/
theorem render_eq_scanToks (m : Mapping) (s : List Char) :
    render m s = ((scanToks s).map (emitTok m)).flatten := by
  suffices h : ∀ n s, s.length ≤ n →
      render m s = ((scanToks s).map (emitTok m)).flatten from h s.length s le_rfl
  intro n
  induction n with
  | zero =>
    intro s hs
    have : s = [] := List.length_eq_zero.mp (Nat.le_zero.mp hs)
    subst this
    rfl
  | succ n ih =>
    intro s hs
    cases s with
    | nil => rfl
    | cons c rest =>
      by_cases hc : c = '{' ∧ rest.head? = some '{'
      · obtain ⟨hc1, hc2⟩ := hc
        subst hc1
        cases rest with
        | nil => simp at hc2
        | cons r1 r2 =>
          have hr1 : r1 = '{' := by simpa using hc2
          subst hr1
          by_cases hin : r2.takeWhile notClose ≠ [] ∧
              (r2.dropWhile notClose).take 2 = ['}', '}']
          · rw [render_succ m r2 hin.1 hin.2, scanToks_succ r2 hin.1 hin.2]
            have hlen : ((r2.dropWhile notClose).drop 2).length ≤ n := by
              have := length_dropWhile_le' notClose r2
              simp only [List.length_drop]
              simp only [List.length_cons] at hs
              omega
            rw [ih _ hlen]
            simp [emitTok]
          · rw [render_fail m r2 hin, scanToks_fail r2 hin]
            have hlen : ('{' :: r2).length ≤ n := by
              simp only [List.length_cons] at hs ⊢
              omega
            rw [ih _ hlen]
            simp [emitTok]
      · rw [render_not_open m c rest hc, scanToks_not_open c rest hc]
        have hlen : rest.length ≤ n := by
          simp only [List.length_cons] at hs
          omega
        rw [ih _ hlen]
        simp [emitTok]

/-! ### Character and strip facts -/

theorem notClose_eq_true_iff (c : Char) : notClose c = true ↔ c ≠ '}' := by
  simp [notClose]

theorem notClose_close : notClose '}' = false := by decide

theorem ws_ne_brace {c : Char} (h : isPyWs c = true) : c ≠ '{' ∧ c ≠ '}' := by
  have hmem : c ∈ pyWsChars := of_decide_eq_true h
  simp only [pyWsChars, List.mem_cons, List.not_mem_nil, or_false] at hmem
  rcases hmem with h | h | h | h | h | h <;> subst h <;> exact ⟨by decide, by decide⟩

theorem pyRstripChars_eq (l : List Char) : pyRstripChars l = l.rdropWhile isPyWs := rfl

theorem pyStripChars_eq (l : List Char) :
    pyStripChars l = (l.dropWhile isPyWs).rdropWhile isPyWs := rfl

theorem mem_pyStripChars {x : Char} {l : List Char} (h : x ∈ pyStripChars l) : x ∈ l := by
  rw [pyStripChars_eq] at h
  have h1 : x ∈ l.dropWhile isPyWs :=
    (List.rdropWhile_prefix isPyWs _).sublist.mem h
  exact (List.dropWhile_suffix isPyWs).sublist.mem h1

theorem dropWhile_rdropWhile (p : α → Bool) (l : List α) :
    ((l.dropWhile p).rdropWhile p).dropWhile p = (l.dropWhile p).rdropWhile p := by
  rcases h : (l.dropWhile p).rdropWhile p with _ | ⟨c, t⟩
  · rfl
  · have hpre : (l.dropWhile p).rdropWhile p <+: l.dropWhile p := List.rdropWhile_prefix _ _
    rw [h] at hpre
    obtain ⟨t', ht'⟩ := hpre
    have hc : p c = false := by
      rcases h0 : l.dropWhile p with _ | ⟨d, u⟩
      · rw [h0] at ht'; simp at ht'
      · have hd := List.head?_dropWhile_not p l
        rw [h0] at hd ht'
        simp only [List.head?_cons] at hd
        have : c = d := by
          have := congrArg List.head? ht'
          simpa using this
        rw [this]
        exact hd
    rw [List.dropWhile_cons_of_neg (by simp [hc])]

theorem pyStripChars_idem (l : List Char) :
    pyStripChars (pyStripChars l) = pyStripChars l := by
  rw [pyStripChars_eq, pyStripChars_eq, dropWhile_rdropWhile,
    List.rdropWhile_idempotent]

theorem pyRstripChars_idem (l : List Char) :
    pyRstripChars (pyRstripChars l) = pyRstripChars l := by
  rw [pyRstripChars_eq, pyRstripChars_eq, List.rdropWhile_idempotent]

theorem rdropWhile_append_rtakeWhile (p : α → Bool) (l : List α) :
    l.rdropWhile p ++ l.rtakeWhile p = l := by
  rw [List.rdropWhile, List.rtakeWhile, ← List.reverse_append,
    List.takeWhile_append_dropWhile, List.reverse_reverse]

/-! ### The blank mapping is canonical -/

/-- A substitution mapping is canonical when every entry maps its key to
exactly the re-escaped placeholder of that key, as `_blank_mapping` does. -/
def CanonMap (m : Mapping) : Prop := ∀ p ∈ m, p.2 = braceWrap p.1

theorem alookup_mem {k : List Char} {m : Mapping} {v : List Char}
    (h : alookup k m = some v) : (k, v) ∈ m := by
  induction m with
  | nil => simp [alookup] at h
  | cons p rest ih =>
    obtain ⟨k', v'⟩ := p
    simp only [alookup] at h
    split at h
    · next heq =>
      subst heq
      obtain rfl : v' = v := by injection h
      exact List.mem_cons_self _ _
    · exact List.mem_cons_of_mem _ (ih h)

theorem mval_canon {m : Mapping} (hm : CanonMap m) (k : List Char) :
    mval m k = braceWrap k := by
  unfold mval
  cases h : alookup k m with
  | none => rfl
  | some v =>
    have := hm _ (alookup_mem h)
    simpa using this

/-! ### Rendering is the identity on brace-free text -/

/-- Rendering leaves any text with no opening brace unchanged. -/
theorem render_all_lit (m : Mapping) :
    ∀ l : List Char, (∀ x ∈ l, x ≠ '{') → render m l = l := by
  intro l
  induction l with
  | nil => intro _; rfl
  | cons c rest ih =>
    intro h
    rw [render_not_open m c rest (by
      intro hc
      exact h c (List.mem_cons_self _ _) hc.1)]
    rw [ih (fun x hx => h x (List.mem_cons_of_mem _ hx))]

/-- Rendering leaves any text with no closing brace unchanged. -/
theorem render_no_close (m : Mapping) :
    ∀ n (l : List Char), l.length ≤ n → (∀ x ∈ l, x ≠ '}') → render m l = l := by
  intro n
  induction n with
  | zero =>
    intro l hl _
    have : l = [] := List.length_eq_zero.mp (Nat.le_zero.mp hl)
    subst this; rfl
  | succ n ih =>
    intro l hl h
    cases l with
    | nil => rfl
    | cons c rest =>
      by_cases hc : c = '{' ∧ rest.head? = some '{'
      · obtain ⟨hc1, hc2⟩ := hc
        subst hc1
        cases rest with
        | nil => simp at hc2
        | cons r1 r2 =>
          have hr1 : r1 = '{' := by simpa using hc2
          subst hr1
          have hall : ∀ x ∈ r2, notClose x = true := by
            intro x hx
            exact (notClose_eq_true_iff x).mpr
              (h x (List.mem_cons_of_mem _ (List.mem_cons_of_mem _ hx)))
          have ha : r2.dropWhile notClose = [] := List.dropWhile_eq_nil_iff.mpr hall
          rw [render_fail m r2 (by
            rw [ha]
            simp)]
          rw [ih ('{' :: r2) (by simp at hl ⊢; omega)
            (fun x hx => by
              rcases List.mem_cons.mp hx with h1 | h1
              · subst h1; decide
              · exact h x (List.mem_cons_of_mem _ (List.mem_cons_of_mem _ h1)))]
      · rw [render_not_open m c rest hc]
        rw [ih rest (by simp at hl; omega)
          (fun x hx => h x (List.mem_cons_of_mem _ hx))]

/-- Rendering a brace-close-free prefix followed by a closing brace keeps
the prefix and the close literal, provided the continuation does not start
with another closing brace. -/
theorem render_append_close (m : Mapping) :
    ∀ n (p X : List Char), p.length ≤ n → (∀ x ∈ p, x ≠ '}') →
      (∀ c, X.head? = some c → c ≠ '}') →
      render m (p ++ '}' :: X) = p ++ '}' :: render m X := by
  intro n
  induction n with
  | zero =>
    intro p X hp _ _
    have : p = [] := List.length_eq_zero.mp (Nat.le_zero.mp hp)
    subst this
    simpa using render_not_open m '}' X (by
      intro h
      exact absurd h.1 (by decide))
  | succ n ih =>
    intro p X hp hpmem hX
    cases p with
    | nil =>
      simpa using render_not_open m '}' X (by
        intro h
        exact absurd h.1 (by decide))
    | cons x p' =>
      by_cases hx : x = '{' ∧ (p' ++ '}' :: X).head? = some '{'
      · obtain ⟨hx1, hx2⟩ := hx
        subst hx1
        cases p' with
        | nil =>
          simp only [List.nil_append, List.head?_cons, Option.some.injEq] at hx2
          exact absurd hx2 (by decide)
        | cons y p'' =>
          have hy : y = '{' := by simpa using hx2
          subst hy
          have hp'' : ∀ a ∈ p'', notClose a = true := by
            intro a ha
            exact (notClose_eq_true_iff a).mpr
              (hpmem a (List.mem_cons_of_mem _ (List.mem_cons_of_mem _ ha)))
          have hcnt : (p'' ++ '}' :: X).takeWhile notClose = p'' := by
            rw [List.takeWhile_append_of_pos hp'']
            rw [List.takeWhile_cons_of_neg (by simp [notClose_close])]
            simp
          have hdrop : (p'' ++ '}' :: X).dropWhile notClose = '}' :: X := by
            rw [List.dropWhile_append_of_pos hp'']
            rw [List.dropWhile_cons_of_neg (by simp [notClose_close])]
          have hfail : ¬((p'' ++ '}' :: X).takeWhile notClose ≠ [] ∧
              ((p'' ++ '}' :: X).dropWhile notClose).take 2 = ['}', '}']) := by
            rw [hcnt, hdrop]
            rintro ⟨-, h2⟩
            cases X with
            | nil => simp at h2
            | cons c X' =>
              simp only [List.take_succ_cons, List.cons.injEq] at h2
              exact hX c (by simp) (by
                have := h2.2
                simpa using this.1)
          have hshape : ('{' :: '{' :: p'') ++ '}' :: X =
              '{' :: '{' :: (p'' ++ '}' :: X) := by simp
          rw [hshape, render_fail m _ hfail]
          have : '{' :: (p'' ++ '}' :: X) = ('{' :: p'') ++ '}' :: X := by simp
          rw [this, ih ('{' :: p'') X
            (by simp at hp ⊢; omega)
            (by
              intro a ha
              rcases List.mem_cons.mp ha with h1 | h1
              · subst h1; decide
              · exact hpmem a (List.mem_cons_of_mem _ (List.mem_cons_of_mem _ h1)))
            hX]
          simp
      · have hshape : (x :: p') ++ '}' :: X = x :: (p' ++ '}' :: X) := by simp
        rw [hshape, render_not_open m x _ hx,
          ih p' X (by simp at hp; omega)
            (fun a ha => hpmem a (List.mem_cons_of_mem _ ha)) hX]
        simp

/-- The head of a rendered nonempty text is the original head character or
an opening brace, for a canonical mapping. -/
theorem render_head_canon {m : Mapping} (hm : CanonMap m) (c : Char) (rest : List Char) :
    (render m (c :: rest)).head? = some c ∨ (render m (c :: rest)).head? = some '{' := by
  by_cases hc : c = '{' ∧ rest.head? = some '{'
  · obtain ⟨hc1, hc2⟩ := hc
    subst hc1
    cases rest with
    | nil => simp at hc2
    | cons r1 r2 =>
      have hr1 : r1 = '{' := by simpa using hc2
      subst hr1
      by_cases hin : r2.takeWhile notClose ≠ [] ∧ (r2.dropWhile notClose).take 2 = ['}', '}']
      · rw [render_succ m r2 hin.1 hin.2, mval_canon hm]
        right
        simp [braceWrap]
      · rw [render_fail m r2 hin]
        right
        simp
  · rw [render_not_open m c rest hc]
    left
    simp

theorem render_head_ne_close {m : Mapping} (hm : CanonMap m) {X : List Char}
    (hX : ∀ c, X.head? = some c → c ≠ '}') :
    ∀ c, (render m X).head? = some c → c ≠ '}' := by
  intro c hc
  cases X with
  | nil =>
    rw [show render m ([] : List Char) = [] from rfl] at hc
    simp at hc
  | cons d X' =>
    rcases render_head_canon hm d X' with h | h
    · rw [h] at hc
      obtain rfl := Option.some.inj hc
      exact hX _ (by simp)
    · rw [h] at hc
      obtain rfl := Option.some.inj hc
      decide

/-- Appending trailing whitespace commutes with rendering: no placeholder
match can reach into a whitespace-only suffix. -/
theorem render_append_ws (m : Mapping) :
    ∀ n (x w : List Char), x.length ≤ n → (∀ c ∈ w, isPyWs c = true) →
      render m (x ++ w) = render m x ++ w := by
  intro n
  induction n with
  | zero =>
    intro x w hx hw
    have : x = [] := List.length_eq_zero.mp (Nat.le_zero.mp hx)
    subst this
    simp only [List.nil_append]
    rw [render_all_lit m w (fun c hc => (ws_ne_brace (hw c hc)).1)]
    rfl
  | succ n ih =>
    intro x w hx hw
    cases x with
    | nil =>
      simp only [List.nil_append]
      rw [render_all_lit m w (fun c hc => (ws_ne_brace (hw c hc)).1)]
      rfl
    | cons c x' =>
      by_cases hc : c = '{' ∧ x'.head? = some '{'
      · obtain ⟨hc1, hc2⟩ := hc
        subst hc1
        cases x' with
        | nil => simp at hc2
        | cons y x'' =>
          have hy : y = '{' := by simpa using hc2
          subst hy
          have happ : ('{' :: '{' :: x'') ++ w = '{' :: '{' :: (x'' ++ w) := by simp
          have hxlen : ('{' :: x'').length ≤ n := by simp at hx ⊢; omega
          by_cases hall : ∀ a ∈ x'', notClose a = true
          · have hwnc : ∀ a ∈ w, notClose a = true := fun a ha =>
              (notClose_eq_true_iff a).mpr (ws_ne_brace (hw a ha)).2
            have hallL : ∀ a ∈ x'' ++ w, notClose a = true := by
              intro a ha
              rcases List.mem_append.mp ha with h | h
              exacts [hall a h, hwnc a h]
            have hdropL : (x'' ++ w).dropWhile notClose = [] :=
              List.dropWhile_eq_nil_iff.mpr hallL
            have hdropR : x''.dropWhile notClose = [] :=
              List.dropWhile_eq_nil_iff.mpr hall
            rw [happ, render_fail m (x'' ++ w) (by rw [hdropL]; rintro ⟨-, h2⟩; simp at h2),
              render_fail m x'' (by rw [hdropR]; rintro ⟨-, h2⟩; simp at h2)]
            rw [show '{' :: (x'' ++ w) = ('{' :: x'') ++ w by simp, ih ('{' :: x'') w hxlen hw]
            simp
          · have hdne : x''.dropWhile notClose ≠ [] := by
              intro h0
              exact hall (List.dropWhile_eq_nil_iff.mp h0)
            obtain ⟨h1, t, hht⟩ : ∃ h1 t, x''.dropWhile notClose = h1 :: t := by
              rcases hd : x''.dropWhile notClose with _ | ⟨h1, t⟩
              · exact absurd hd hdne
              · exact ⟨h1, t, rfl⟩
            have hh1 : h1 = '}' := by
              have hstep := List.head?_dropWhile_not notClose x''
              rw [hht] at hstep
              simp only [List.head?_cons] at hstep
              simpa [notClose] using hstep
            subst hh1
            have hcntmem : ∀ a ∈ x''.takeWhile notClose, notClose a = true := fun a ha =>
              List.mem_takeWhile_imp ha
            have hsplitx : x''.takeWhile notClose ++ '}' :: t = x'' := by
              rw [← hht]
              exact List.takeWhile_append_dropWhile notClose x''
            have hcntL : (x'' ++ w).takeWhile notClose = x''.takeWhile notClose := by
              conv_lhs => rw [← hsplitx]
              rw [List.append_assoc, List.cons_append,
                List.takeWhile_append_of_pos hcntmem,
                List.takeWhile_cons_of_neg (by simp [notClose_close])]
              simp
            have hdropL : (x'' ++ w).dropWhile notClose = '}' :: (t ++ w) := by
              conv_lhs => rw [← hsplitx]
              rw [List.append_assoc, List.cons_append,
                List.dropWhile_append_of_pos hcntmem,
                List.dropWhile_cons_of_neg (by simp [notClose_close])]
            by_cases hta : (x''.dropWhile notClose).take 2 = ['}', '}']
            · obtain ⟨t₂, rfl⟩ : ∃ t₂, t = '}' :: t₂ := by
                rw [hht] at hta
                cases t with
                | nil => simp at hta
                | cons ct t' =>
                  have : ct = '}' := by simpa using hta
                  subst this
                  exact ⟨t', rfl⟩
              by_cases hne : x''.takeWhile notClose ≠ []
              · have ht₂len : t₂.length ≤ n := by
                  have hd2 := length_dropWhile_le' notClose x''
                  rw [hht] at hd2
                  simp only [List.length_cons] at hd2
                  simp only [List.length_cons] at hx
                  omega
                rw [happ, render_succ m (x'' ++ w) (by rw [hcntL]; exact hne)
                    (by rw [hdropL]; simp),
                  render_succ m x'' hne hta]
                rw [hcntL, hdropL, hht]
                rw [show ('}' :: (('}' :: t₂) ++ w)).drop 2 = t₂ ++ w by simp,
                  show ('}' :: '}' :: t₂).drop 2 = t₂ by simp]
                rw [ih t₂ w ht₂len hw]
                simp
              · rw [happ, render_fail m (x'' ++ w) (by rw [hcntL]; rintro ⟨h1, -⟩; exact hne h1),
                  render_fail m x'' (by rintro ⟨h1, -⟩; exact hne h1)]
                rw [show '{' :: (x'' ++ w) = ('{' :: x'') ++ w by simp,
                  ih ('{' :: x'') w hxlen hw]
                simp
            · have htaL : ¬((x'' ++ w).dropWhile notClose).take 2 = ['}', '}'] := by
                rw [hdropL]
                rw [hht] at hta
                cases t with
                | nil =>
                  cases w with
                  | nil => simp
                  | cons cw w' =>
                    have hcw : cw ≠ '}' := (ws_ne_brace (hw cw (by simp))).2
                    simp [hcw]
                | cons ct t' =>
                  intro h2
                  apply hta
                  simpa using h2
              rw [happ, render_fail m (x'' ++ w) (by rintro ⟨-, h2⟩; exact htaL h2),
                render_fail m x'' (by rintro ⟨-, h2⟩; rw [hht] at h2; rw [hht] at hta; exact hta h2)]
              rw [show '{' :: (x'' ++ w) = ('{' :: x'') ++ w by simp,
                ih ('{' :: x'') w hxlen hw]
              simp
      · have hcL : ¬(c = '{' ∧ (x' ++ w).head? = some '{') := by
          rintro ⟨rfl, hhd⟩
          apply hc
          refine ⟨rfl, ?_⟩
          cases x' with
          | nil =>
            simp only [List.nil_append] at hhd
            cases w with
            | nil => simp at hhd
            | cons cw w' =>
              have hcw : cw = '{' := by simpa using hhd
              exact absurd hcw (ws_ne_brace (hw cw (by simp))).1
          | cons d x'' => simpa using hhd
        rw [show (c :: x') ++ w = c :: (x' ++ w) by simp, render_not_open m c _ hcL,
          render_not_open m c x' hc, ih x' w (by simp at hx; omega) hw]
        simp

/-- Rendering a fully-literal double brace pair copies it. -/
theorem render_open_close_pair (m : Mapping) (w : List Char) :
    render m ('{' :: '{' :: '}' :: '}' :: w) = '{' :: '{' :: '}' :: '}' :: render m w := by
  rw [render_fail m ('}' :: '}' :: w) (by
    rintro ⟨h1, -⟩
    rw [List.takeWhile_cons_of_neg (by simp [notClose_close])] at h1
    exact h1 rfl)]
  rw [render_not_open m '{' ('}' :: '}' :: w) (by rintro ⟨-, h2⟩; simp at h2)]
  rw [render_not_open m '}' ('}' :: w) (by rintro ⟨h1, -⟩; exact absurd h1 (by decide))]
  rw [render_not_open m '}' w (by rintro ⟨h1, -⟩; exact absurd h1 (by decide))]

/-- Rendering a canonical placeholder copies it and continues behind it. -/
theorem render_canon_ph (m : Mapping) (hm : CanonMap m) (k w : List Char)
    (hk : ∀ a ∈ k, notClose a = true) (hks : pyStripChars k = k) (hkne : k ≠ []) :
    render m ('{' :: '{' :: (k ++ '}' :: '}' :: w)) = braceWrap k ++ render m w := by
  have hcnt : (k ++ '}' :: '}' :: w).takeWhile notClose = k := by
    rw [List.takeWhile_append_of_pos hk,
      List.takeWhile_cons_of_neg (by simp [notClose_close])]
    simp
  have hdrop : (k ++ '}' :: '}' :: w).dropWhile notClose = '}' :: '}' :: w := by
    rw [List.dropWhile_append_of_pos hk,
      List.dropWhile_cons_of_neg (by simp [notClose_close])]
  rw [render_succ m _ (by rw [hcnt]; exact hkne) (by rw [hdrop]; simp)]
  rw [hcnt, hdrop, hks, mval_canon hm]
  simp

/-- Rendering with a canonical mapping, such as the blank mapping of
`_blank_mapping`, is idempotent: a second pass over the output of a first
pass changes nothing. -/
theorem render_idem (m : Mapping) (hm : CanonMap m) :
    ∀ s, render m (render m s) = render m s := by
  suffices h : ∀ n s, s.length ≤ n → render m (render m s) = render m s from
    fun s => h s.length s le_rfl
  intro n
  induction n with
  | zero =>
    intro s hs
    have : s = [] := List.length_eq_zero.mp (Nat.le_zero.mp hs)
    subst this
    rfl
  | succ n ih =>
    intro s hs
    cases s with
    | nil => rfl
    | cons c rest =>
      by_cases hc : c = '{' ∧ rest.head? = some '{'
      · obtain ⟨hc1, hc2⟩ := hc
        subst hc1
        cases rest with
        | nil => simp at hc2
        | cons r1 r2 =>
          have hr1 : r1 = '{' := by simpa using hc2
          subst hr1
          by_cases hin : r2.takeWhile notClose ≠ [] ∧
              (r2.dropWhile notClose).take 2 = ['}', '}']
          · obtain ⟨hne, hta⟩ := hin
            obtain ⟨tl, hdrop⟩ : ∃ tl, r2.dropWhile notClose = '}' :: '}' :: tl := by
              rcases hd : r2.dropWhile notClose with _ | ⟨h1, t⟩
              · rw [hd] at hta; simp at hta
              · have hh1 : h1 = '}' := by
                  have hstep := List.head?_dropWhile_not notClose r2
                  rw [hd] at hstep
                  simp only [List.head?_cons] at hstep
                  simpa [notClose] using hstep
                subst hh1
                cases t with
                | nil => rw [hd] at hta; simp at hta
                | cons h2c t2 =>
                  have hh2 : h2c = '}' := by
                    rw [hd] at hta
                    simpa using hta
                  subst hh2
                  exact ⟨t2, rfl⟩
            rw [render_succ m r2 hne hta, mval_canon hm]
            have hklen : ((r2.dropWhile notClose).drop 2).length ≤ n := by
              have := length_dropWhile_le' notClose r2
              simp only [List.length_drop]
              simp only [List.length_cons] at hs
              omega
            have hwfix : render m (render m ((r2.dropWhile notClose).drop 2)) =
                render m ((r2.dropWhile notClose).drop 2) := ih _ hklen
            have hkmem : ∀ a ∈ pyStripChars (r2.takeWhile notClose), notClose a = true :=
              fun a ha => List.mem_takeWhile_imp (mem_pyStripChars ha)
            have hks : pyStripChars (pyStripChars (r2.takeWhile notClose)) =
                pyStripChars (r2.takeWhile notClose) := pyStripChars_idem _
            rcases hk : pyStripChars (r2.takeWhile notClose) with _ | ⟨k0, k'⟩
            · rw [show braceWrap [] ++ render m ((r2.dropWhile notClose).drop 2) =
                  '{' :: '{' :: '}' :: '}' :: render m ((r2.dropWhile notClose).drop 2) by
                simp [braceWrap]]
              rw [render_open_close_pair, hwfix]
            · rw [show braceWrap (k0 :: k') ++ render m ((r2.dropWhile notClose).drop 2) =
                  '{' :: '{' :: ((k0 :: k') ++ '}' :: '}' ::
                    render m ((r2.dropWhile notClose).drop 2)) by
                simp [braceWrap]]
              rw [render_canon_ph m hm (k0 :: k') _ (hk ▸ hkmem) (hk ▸ hks) (by simp), hwfix]
              simp [braceWrap]
          · rw [render_fail m r2 hin]
            by_cases hta : (r2.dropWhile notClose).take 2 = ['}', '}']
            · have hcnt0 : r2.takeWhile notClose = [] := by
                by_contra h0
                exact hin ⟨h0, hta⟩
              obtain ⟨d, rfl⟩ : ∃ d, r2 = '}' :: '}' :: d := by
                cases r2 with
                | nil => simp at hta
                | cons a r3 =>
                  have ha : notClose a = false := by
                    by_contra h0
                    rw [List.takeWhile_cons_of_pos (by
                      exact Bool.of_not_eq_false h0)] at hcnt0
                    simp at hcnt0
                  have ha' : a = '}' := by simpa [notClose] using ha
                  subst ha'
                  rw [List.dropWhile_cons_of_neg (by simp [notClose_close])] at hta
                  cases r3 with
                  | nil => simp at hta
                  | cons b r4 =>
                    have hb : b = '}' := by simpa using hta
                    subst hb
                    exact ⟨r4, rfl⟩
              have hlit : render m ('{' :: '}' :: '}' :: d) =
                  '{' :: '}' :: '}' :: render m d := by
                rw [render_not_open m '{' ('}' :: '}' :: d) (by rintro ⟨-, h2⟩; simp at h2)]
                rw [render_not_open m '}' ('}' :: d) (by rintro ⟨h1, -⟩; exact absurd h1 (by decide))]
                rw [render_not_open m '}' d (by rintro ⟨h1, -⟩; exact absurd h1 (by decide))]
              rw [hlit, render_open_close_pair]
              have hdlen : d.length ≤ n := by
                simp only [List.length_cons] at hs
                omega
              rw [ih d hdlen]
            · by_cases hnil : r2.dropWhile notClose = []
              · have hall : ∀ a ∈ r2, notClose a = true := List.dropWhile_eq_nil_iff.mp hnil
                have hfix1 : render m ('{' :: r2) = '{' :: r2 :=
                  render_no_close m ('{' :: r2).length _ le_rfl (by
                    intro a ha
                    rcases List.mem_cons.mp ha with h1 | h1
                    · subst h1; decide
                    · exact (notClose_eq_true_iff a).mp (hall a h1))
                rw [hfix1, render_fail m r2 hin, hfix1]
              · obtain ⟨d, hd⟩ : ∃ d, r2.dropWhile notClose = '}' :: d := by
                  rcases hd : r2.dropWhile notClose with _ | ⟨h1, t⟩
                  · exact absurd hd hnil
                  · have hh1 : h1 = '}' := by
                      have hstep := List.head?_dropWhile_not notClose r2
                      rw [hd] at hstep
                      simp only [List.head?_cons] at hstep
                      simpa [notClose] using hstep
                    subst hh1
                    exact ⟨t, rfl⟩
                have hdhead : ∀ c, d.head? = some c → c ≠ '}' := by
                  intro c hc0 hceq
                  subst hceq
                  apply hta
                  rw [hd]
                  cases d with
                  | nil => simp at hc0
                  | cons e d' =>
                    have he : e = '}' := by simpa using hc0
                    subst he
                    simp
                have hsplit : r2.takeWhile notClose ++ '}' :: d = r2 := by
                  rw [← hd]
                  exact List.takeWhile_append_dropWhile notClose r2
                have hcmem : ∀ a ∈ '{' :: r2.takeWhile notClose, a ≠ '}' := by
                  intro a ha
                  rcases List.mem_cons.mp ha with h1 | h1
                  · subst h1; decide
                  · exact (notClose_eq_true_iff a).mp (List.mem_takeWhile_imp h1)
                have hdlen : d.length ≤ n := by
                  have h1 := length_dropWhile_le' notClose r2
                  rw [hd] at h1
                  simp only [List.length_cons] at h1 hs
                  omega
                have hrender1 : render m ('{' :: r2) =
                    ('{' :: r2.takeWhile notClose) ++ '}' :: render m d := by
                  conv_lhs => rw [← hsplit]
                  rw [show '{' :: (r2.takeWhile notClose ++ '}' :: d) =
                    ('{' :: r2.takeWhile notClose) ++ '}' :: d by simp]
                  exact render_append_close m ('{' :: r2.takeWhile notClose).length _ d
                    le_rfl hcmem hdhead
                rw [hrender1]
                have hRdhead : ∀ c, (render m d).head? = some c → c ≠ '}' :=
                  render_head_ne_close hm hdhead
                have hshape : '{' :: (('{' :: r2.takeWhile notClose) ++ '}' :: render m d) =
                    '{' :: '{' :: (r2.takeWhile notClose ++ '}' :: render m d) := by simp
                rw [hshape]
                have hcntmem : ∀ a ∈ r2.takeWhile notClose, notClose a = true :=
                  fun a ha => List.mem_takeWhile_imp ha
                have hcnt2 : (r2.takeWhile notClose ++ '}' :: render m d).takeWhile notClose =
                    r2.takeWhile notClose := by
                  rw [List.takeWhile_append_of_pos hcntmem,
                    List.takeWhile_cons_of_neg (by simp [notClose_close])]
                  simp
                have hdrop2 : (r2.takeWhile notClose ++ '}' :: render m d).dropWhile notClose =
                    '}' :: render m d := by
                  rw [List.dropWhile_append_of_pos hcntmem,
                    List.dropWhile_cons_of_neg (by simp [notClose_close])]
                rw [render_fail m _ (by
                  rintro ⟨-, h2⟩
                  rw [hdrop2] at h2
                  rcases hr : render m d with _ | ⟨e', w'⟩
                  · rw [hr] at h2; simp at h2
                  · rw [hr] at h2
                    have he' : e' = '}' := by simpa using h2
                    exact hRdhead e' (by rw [hr]; simp) he')]
                rw [show '{' :: (r2.takeWhile notClose ++ '}' :: render m d) =
                  ('{' :: r2.takeWhile notClose) ++ '}' :: render m d by simp]
                rw [render_append_close m ('{' :: r2.takeWhile notClose).length _ _
                  le_rfl hcmem hRdhead]
                rw [ih d hdlen]
      · rw [render_not_open m c rest hc]
        have hrfix : render m (render m rest) = render m rest := by
          refine ih rest ?_
          simp only [List.length_cons] at hs
          omega
        have hguard2 : ¬(c = '{' ∧ (render m rest).head? = some '{') := by
          rintro ⟨rfl, hhd⟩
          apply hc
          refine ⟨rfl, ?_⟩
          cases rest with
          | nil =>
            rw [show render m ([] : List Char) = [] from rfl] at hhd
            simp at hhd
          | cons d rest' =>
            by_cases hdbrace : d = '{'
            · subst hdbrace; simp
            · rw [render_not_open m d rest' (by rintro ⟨h1, -⟩; exact hdbrace h1)] at hhd
              simp only [List.head?_cons, Option.some.injEq] at hhd
              exact absurd hhd hdbrace
        rw [render_not_open m c _ hguard2, hrfix]

/-- Idempotence survives the trailing-whitespace trim applied to each block:
re-rendering a trimmed rendered block changes nothing. -/
theorem render_rstrip_idem (m : Mapping) (hm : CanonMap m) (s : List Char) :
    render m (pyRstripChars (render m s)) = pyRstripChars (render m s) := by
  have hdec : pyRstripChars (render m s) ++ (render m s).rtakeWhile isPyWs = render m s := by
    rw [pyRstripChars_eq]
    exact rdropWhile_append_rtakeWhile isPyWs (render m s)
  have hws : ∀ c ∈ (render m s).rtakeWhile isPyWs, isPyWs c = true := fun c hc =>
    List.mem_rtakeWhile_imp hc
  have happ := render_append_ws m (pyRstripChars (render m s)).length
    (pyRstripChars (render m s)) ((render m s).rtakeWhile isPyWs) le_rfl hws
  rw [hdec, render_idem m hm s] at happ
  exact List.append_cancel_right (happ.symm.trans hdec.symm)

/-- The dict literal built by `_blank_mapping` inside the `terms` magic. -/
def blank_mapping : List (String × String) := [
  ("Term", "\x7b\x7bTerm\x7d\x7d"),
  ("FunctionName", "\x7b\x7bFunctionName\x7d\x7d"),
  ("ModulePath", "\x7b\x7bModulePath\x7d\x7d"),
  ("Description", "\x7b\x7bDescription\x7d\x7d"),
  ("CodeExample", "\x7b\x7bCodeExample\x7d\x7d"),
  ("Code/ML Example", "\x7b\x7bCode/ML Example\x7d\x7d"),
  ("Code/ML Definition", "\x7b\x7bCode/ML Definition\x7d\x7d"),
  ("Math Definition", "\x7b\x7bMath Definition\x7d\x7d"),
  ("Statistics Definition", "\x7b\x7bStatistics Definition\x7d\x7d"),
  ("Diagram", "\x7b\x7bDiagram\x7d\x7d"),
  ("Note1", "\x7b\x7bNote1\x7d\x7d"),
  ("Note2", "\x7b\x7bNote2\x7d\x7d"),
  ("MethodName", "\x7b\x7bMethodName\x7d\x7d"),
  ("MethodSignature", "\x7b\x7bMethodSignature\x7d\x7d"),
  ("MethodDescription", "\x7b\x7bMethodDescription\x7d\x7d"),
  ("ExampleCode", "\x7b\x7bExampleCode\x7d\x7d"),
  ("Default1", "\x7b\x7bDefault1\x7d\x7d"),
  ("Default2", "\x7b\x7bDefault2\x7d\x7d"),
  ("Param1", "\x7b\x7bParam1\x7d\x7d"),
  ("Param2", "\x7b\x7bParam2\x7d\x7d"),
  ("Param3", "\x7b\x7bParam3\x7d\x7d"),
  ("Param4", "\x7b\x7bParam4\x7d\x7d"),
  ("Param5", "\x7b\x7bParam5\x7d\x7d"),
  ("Definition1", "\x7b\x7bDefinition1\x7d\x7d"),
  ("Definition2", "\x7b\x7bDefinition2\x7d\x7d"),
  ("AverageCase", "\x7b\x7bAverageCase\x7d\x7d"),
  ("WorstCase", "\x7b\x7bWorstCase\x7d\x7d"),
  ("AverageName", "\x7b\x7bAverageName\x7d\x7d"),
  ("WorstName", "\x7b\x7bWorstName\x7d\x7d"),
  ("AverageSlug", "\x7b\x7bAverageSlug\x7d\x7d"),
  ("WorstSlug", "\x7b\x7bWorstSlug\x7d\x7d"),
  ("TypeDistinguishingExample", "\x7b\x7bTypeDistinguishingExample\x7d\x7d"),
  ("TypeContradistinguishingExample", "\x7b\x7bTypeContradistinguishingExample\x7d\x7d")]

/-- `_blank_mapping` as a substitution mapping over character lists. -/
def blankMapping : Mapping := blank_mapping.map (fun p => (p.1.data, p.2.data))

theorem blankMapping_canon : CanonMap blankMapping := by
  show ∀ p ∈ blankMapping, p.2 = braceWrap p.1
  decide

/-! ### The template library model

A loaded terms_template.yaml document: a mapping from names to values that
are either template strings, nested section mappings, or something else. -/

/-- A YAML value as seen by term_magic: a string, a nested mapping, or any
other shape (number, list, null), which the code only ever type-tests. -/
inductive YVal where
  | s (v : String)
  | dict (entries : List (String × YVal))
  | other

/-- A YAML mapping, in document order (Python dicts preserve insertion
order, and the code iterates `data.values()` in that order). -/
abbrev Lib := List (String × YVal)

/-- Python dict lookup on a library. -/
def lookupY : Lib → String → Option YVal
  | [], _ => none
  | (k', v) :: rest, k => if k' = k then some v else lookupY rest k

/-- Python `k in data`. -/
def hasKey (d : Lib) (k : String) : Bool := (lookupY d k).isSome

/-- `k in data and isinstance(data[k], str)`: the value of `k` when it is
present and a string. -/
def lookupStr (d : Lib) (k : String) : Option String :=
  match lookupY d k with
  | some (.s v) => some v
  | _ => none

/-- The first string-typed value in `data.values()` order, the last-resort
fallback of `_select_template_block`. -/
def firstString : Lib → Option String
  | [] => none
  | (_, .s v) :: _ => some v
  | _ :: rest => firstString rest

/-- Python `sep.join(parts)`. -/
def pyJoin (sep : String) (parts : List String) : String :=
  String.mk (List.intercalate sep.data (parts.map String.data))

/-- The stitch order of the template_term family in `_select_template_block`. -/
def term_order : List String := ["h", "ex", "n", "tc", "fo"]

/-- The stitch order of the template_diagram family. -/
def diagram_order : List String := ["h2", "di", "n2", "ex2", "tc2", "fo2"]

/-- The stitch order of the template_tree family. -/
def tree_order : List String := ["trh", "trd", "trp", "tra", "tree", "trt", "trf"]

/-- `order_map.get(key_hint, [])` of `_select_template_block`. -/
def orderMapGet (kh : String) : List String :=
  if kh = "template_term" then term_order
  else if kh = "template_diagram" then diagram_order
  else if kh = "template_tree" then tree_order
  else []

/-- Stitch a sectioned family: collect the string-typed sections in the
given order and join them with one newline; nothing when no part resolves. -/
def stitch (fam : Lib) (order : List String) : Option String :=
  let parts := order.filterMap (lookupStr fam)
  if parts = [] then none else some (pyJoin "\n" parts)

/-- The three known-family stitching fallbacks of `_select_template_block`,
tried for template_term, template_diagram and template_tree in that order. -/
def knownStitch (data : Lib) : Option String :=
  (match lookupY data "template_term" with
   | some (.dict f) => stitch f term_order
   | _ => none) <|>
  ((match lookupY data "template_diagram" with
   | some (.dict f) => stitch f diagram_order
   | _ => none) <|>
  (match lookupY data "template_tree" with
   | some (.dict f) => stitch f tree_order
   | _ => none))

/-- `_select_template_block(data, key_hint)`. -/
def select_template_block (data : Lib) (keyHint : Option String) : Except String String :=
  let preferred := (match keyHint with | some k => [k] | none => []) ++ ["template"]
  match preferred.findSome? (lookupStr data) with
  | some t => .ok t
  | none =>
    match (match keyHint with
           | some kh =>
             match lookupY data kh with
             | some (.dict fam) => stitch fam (orderMapGet kh)
             | _ => none
           | none => none) with
    | some t => .ok t
    | none =>
      match knownStitch data with
      | some t => .ok t
      | none =>
        match firstString data with
        | some t => .ok t
        | none => .error "No string templates found in terms_template.yaml"

/-- The section short-names recognised for template_term. -/
def term_sections : List String := ["h", "ex", "n", "fo", "tc"]

/-- The section short-names recognised for template_diagram. -/
def diagram_sections : List String := ["h2", "di", "n2", "ex2", "fo2", "tc2"]

/-- The section short-names recognised for template_tree. -/
def tree_sections : List String := ["trh", "trd", "trp", "tra", "tree", "trt", "trf"]

/-- `_select_template_section(data, section)`: each family is consulted in
turn, and only for the short-names in its own recognised set. -/
def select_template_section (data : Lib) (sect : String) : Except String String :=
  let try1 : Option String :=
    match lookupY data "template_term" with
    | some (.dict tt) => if sect ∈ term_sections then lookupStr tt sect else none
    | _ => none
  let try2 : Option String :=
    match lookupY data "template_diagram" with
    | some (.dict td) => if sect ∈ diagram_sections then lookupStr td sect else none
    | _ => none
  let try3 : Option String :=
    match lookupY data "template_tree" with
    | some (.dict tt3) => if sect ∈ tree_sections then lookupStr tt3 sect else none
    | _ => none
  match try1 <|> (try2 <|> try3) with
  | some b => .ok b
  | none => .error ("Section " ++ sect ++ " not found or not a string in available templates")

/-- Python `order.index(x)` for a present element; the length otherwise,
matching the guarded use `order.index(footer) if footer in order else len(order)`. -/
def pyIdx (x : String) : List String → Nat
  | [] => 0
  | y :: rest => if y = x then 0 else pyIdx x rest + 1

/-- The splice of an optional section into a composition order:
`insert_idx = order.index(footer) if footer in order else len(order)` and
`order[:insert_idx] + [opt] + order[insert_idx:]`. -/
def spliceBefore (base : List String) (footer opt : String) : List String :=
  let i := if footer ∈ base then pyIdx footer base else base.length
  base.take i ++ [opt] ++ base.drop i

/-- The template_term composition branch of the `terms` magic: base order
h/ex/n/fo, with tc spliced in before fo only when the toggle was given and
the tc key is present. -/
def resolveTermFamily (tt : Lib) (includeTc : Bool) : Except String String :=
  let base : List String := ["h", "ex", "n", "fo"]
  let order := if includeTc && hasKey tt "tc" then spliceBefore base "fo" "tc" else base
  let parts := order.filterMap (lookupStr tt)
  if parts = [] then .error "template_term is empty or missing sections"
  else .ok (pyJoin "\n" parts)

/-- The template_diagram composition branch: tc2 is always spliced in
before fo2 when its key is present, with no flag needed. -/
def resolveDiagramFamily (td : Lib) : Except String String :=
  let base : List String := ["h2", "di", "n2", "ex2", "fo2"]
  let order := if hasKey td "tc2" then spliceBefore base "fo2" "tc2" else base
  let parts := order.filterMap (lookupStr td)
  if parts = [] then .error "template_diagram is empty or missing sections"
  else .ok (pyJoin "\n" parts)

/-- The template_tree composition branch: trt is always spliced in before
trf when its key is present, with no flag needed. -/
def resolveTreeFamily (tt : Lib) : Except String String :=
  let base : List String := ["trh", "trd", "trp", "tra", "tree", "trf"]
  let order := if hasKey tt "trt" then spliceBefore base "trf" "trt" else base
  let parts := order.filterMap (lookupStr tt)
  if parts = [] then .error "template_tree is empty or missing sections"
  else .ok (pyJoin "\n" parts)

/-- The non-section template resolution of the `terms` magic: the implicit
default to template_term, then the three sectioned-family branches, with
`_select_template_block` for everything else. -/
def resolveTemplate (data : Lib) (keyHint : Option String) (includeTc : Bool) :
    Except String String :=
  let keyHint :=
    if keyHint.isNone && !hasKey data "template" && hasKey data "template_term" then
      some "template_term"
    else keyHint
  let active := keyHint.getD "template"
  if active = "template_term" then
    match lookupY data "template_term" with
    | some (.dict tt) => resolveTermFamily tt includeTc
    | _ => select_template_block data keyHint
  else if active = "template_diagram" then
    match lookupY data "template_diagram" with
    | some (.dict td) => resolveDiagramFamily td
    | _ => select_template_block data keyHint
  else if active = "template_tree" then
    match lookupY data "template_tree" with
    | some (.dict tt) => resolveTreeFamily tt
    | _ => select_template_block data keyHint
  else select_template_block data keyHint

/-! ### Request parsing -/

/-- Negation of the whitespace test, for token extraction. -/
def notWs (c : Char) : Bool := !isPyWs c

/-- Python `str.split()` with no separator: split on whitespace runs and
drop empty pieces.  The accumulator holds the current token reversed. -/
def wsSplitAux : List Char → List Char → List (List Char)
  | cur, [] => if cur = [] then [] else [cur.reverse]
  | cur, c :: rest =>
    if isPyWs c then
      if cur = [] then wsSplitAux [] rest else cur.reverse :: wsSplitAux [] rest
    else wsSplitAux (c :: cur) rest

/-- Python `s.split()`. -/
def wsSplit (s : String) : List String := (wsSplitAux [] s.data).map String.mk

/-- Python `s.split(",")`: split at every comma, keeping empty pieces. -/
def splitComma : List Char → List (List Char)
  | [] => [[]]
  | c :: rest =>
    if c = ',' then [] :: splitComma rest
    else
      match splitComma rest with
      | [] => [[c]]
      | h :: t => (c :: h) :: t

/-- `[t.strip() for t in arg.split(",") if t.strip()]`. -/
def cleanSplit (s : String) : List String :=
  (splitComma s.data).filterMap (fun t =>
    let t' := pyStripChars t
    if t' = [] then none else some (String.mk t'))

/-- Python `str.isdigit` restricted to ASCII digits. -/
def pyIsDigit (s : String) : Bool := !s.data.isEmpty && s.data.all (fun c => c.isDigit)

/-- Decimal value of a digit string. -/
def digitsToNat (l : List Char) : Nat :=
  l.foldl (fun n c => n * 10 + (c.toNat - '0'.toNat)) 0

/-- Python `int(s)` on a digit string. -/
def pyToNat (s : String) : Nat := digitsToNat s.data

/-- Python `str.lower` (ASCII). -/
def lowerStr (s : String) : String := String.mk (s.data.map Char.toLower)

/-- The mode selected by the head token of a `terms` request line. -/
inductive HeadMode where
  | sectionMode (sect : String)
  | familyMode (hint : Option String)
  | defaultMode
deriving DecidableEq

/-- The section_keys set of the `terms` magic. -/
def section_keys : List String :=
  ["h", "ex", "n", "fo", "h2", "di", "n2", "ex2", "fo2",
   "trh", "trd", "trp", "tra", "tree", "trt", "trf"]

/-- The tmpl_key_map dict of the `terms` magic: t1 prefers the flat
template (hint None), t2 through t5 select a named family. -/
def tmpl_key_map (head : String) : Option (Option String) :=
  if head = "t1" then some none
  else if head = "t2" then some (some "template_math")
  else if head = "t3" then some (some "template_func")
  else if head = "t4" then some (some "template_diagram")
  else if head = "t5" then some (some "template_tree")
  else none

/-- Head parsing of a `terms` request line: strip the line, split off the
first whitespace-separated token, lower-case it and classify it as a
section name, a family short-code, or neither (whole line is the argument). -/
def parseHead (line : String) : HeadMode × String :=
  let l := pyStripChars line.data
  if l = [] then (.defaultMode, "")
  else
    let headTok := String.mk (l.takeWhile notWs)
    let restRaw := l.dropWhile notWs
    let rest := String.mk (pyStripChars restRaw)
    let headL := lowerStr headTok
    if headL ∈ section_keys then (.sectionMode headL, rest)
    else
      match tmpl_key_map headL with
      | some hint => (.familyMode hint, rest)
      | none => (.defaultMode, String.mk l)

/-- The trailing `tc` toggle stripping of the `terms` magic: when the last
whitespace-separated token of the argument lower-cases to tc, drop it and
record the flag; the remaining tokens are re-joined with single spaces. -/
def stripToggle (rest : String) : Bool × String :=
  if rest = "" then (false, "")
  else
    let ws := wsSplit rest
    match ws.getLast? with
    | some t =>
      if lowerStr t = "tc" then (true, pyStrip (pyJoin " " ws.dropLast))
      else (false, rest)
    | none => (false, rest)

/-- The parse of the subject/count argument: digits give a repeat count
(non-positive count reports nothing to insert), anything else is split on
commas into trimmed, non-blank subjects, an empty result reverting to a
single blank block. -/
inductive ArgParse where
  | nothingMode
  | runMode (termsList : List String) (count : Nat)
deriving DecidableEq

/-- Lines 339 to 348 of term_magic.py. -/
def parseArg (arg : String) : ArgParse :=
  if pyIsDigit arg then
    let c := pyToNat arg
    if c ≤ 0 then .nothingMode else .runMode [] c
  else
    let ts := cleanSplit arg
    .runMode ts (if ts = [] then 1 else 0)

/-- The per-subject mapping: the blank mapping updated so that Term and
FunctionName both receive the subject text. -/
def withTermMapping (term : String) : Mapping :=
  ("Term".data, term.data) :: ("FunctionName".data, term.data) :: blankMapping

/-- The block-building loops of the `terms` magic: one rendered and
right-trimmed block per subject, or `count` blank blocks. -/
def makeBlocks (tmpl : String) (termsList : List String) (count : Nat) : List String :=
  if termsList = [] then
    List.replicate count (pyRstrip (renderStr tmpl blankMapping))
  else
    termsList.map (fun t => pyRstrip (renderStr tmpl (withTermMapping t)))

/-- The observable outcome of one `terms` invocation: an informational
no-op, or the inserted blocks together with the final Markdown text. -/
inductive TermsOutcome where
  | nothingToInsert
  | inserted (blocks : List String) (finalMd : String)
deriving DecidableEq

/-- The argument remainder after head parsing. -/
def restOf (line : String) : String := (parseHead line).2

/-- The request mode of a line. -/
def modeOf (line : String) : HeadMode := (parseHead line).1

/-- The tc toggle extracted from a line. -/
def flagOf (line : String) : Bool := (stripToggle (restOf line)).1

/-- The subject/count argument of a line, after toggle stripping. -/
def argOf (line : String) : String := (stripToggle (restOf line)).2

/-- Template selection for a parsed mode. -/
def selectFor (data : Lib) (mode : HeadMode) (includeTc : Bool) : Except String String :=
  match mode with
  | .sectionMode sect => select_template_section data sect
  | .familyMode hint => resolveTemplate data hint includeTc
  | .defaultMode => resolveTemplate data none includeTc

/-- The `terms` line magic, from parsed line to outcome: parse the head and
the toggle, parse the subject/count argument (returning the no-op outcome
before any template is resolved), resolve the template, build the blocks
and join them with blank lines into the inserted Markdown. -/
def terms (data : Lib) (line : String) : Except String TermsOutcome :=
  match parseArg (argOf line) with
  | .nothingMode => .ok .nothingToInsert
  | .runMode ts c =>
    match selectFor data (modeOf line) (flagOf line) with
    | .error e => .error e
    | .ok tmpl => .ok (.inserted (makeBlocks tmpl ts c) (pyJoin "\n\n" (makeBlocks tmpl ts c)))

/-! ### Helper facts for the claim theorems -/

/-- The substitution described by the specification, token by token: a
recognized key receives the caller-supplied value, an unrecognized key is
replaced by the re-escaped placeholder rebuilt from its stripped key. -/
def emitSpec (m : Mapping) : Tok → List Char
  | .lit c => [c]
  | .ph raw =>
    match alookup (pyStripChars raw) m with
    | some v => v
    | none => braceWrap (pyStripChars raw)

theorem emitTok_eq_emitSpec (m : Mapping) (t : Tok) : emitTok m t = emitSpec m t := by
  cases t with
  | lit c => rfl
  | ph raw =>
    simp only [emitTok, emitSpec, mval]
    cases alookup (pyStripChars raw) m <;> rfl

theorem pyRstrip_idem (s : String) : pyRstrip (pyRstrip s) = pyRstrip s := by
  show String.mk (pyRstripChars (pyRstripChars s.data)) = _
  rw [pyRstripChars_idem]
  rfl

theorem makeBlocks_rstripped (tmpl : String) (ts : List String) (c : Nat) :
    ∀ b ∈ makeBlocks tmpl ts c, pyRstrip b = b := by
  intro b hb
  unfold makeBlocks at hb
  split at hb
  · have := (List.eq_of_mem_replicate hb)
    subst this
    exact pyRstrip_idem _
  · obtain ⟨t, -, rfl⟩ := List.mem_map.mp hb
    exact pyRstrip_idem _

theorem firstString_of_any (data : Lib)
    (h : data.any (fun p => match p.2 with | .s _ => true | _ => false) = true) :
    ∃ t, firstString data = some t := by
  induction data with
  | nil => simp at h
  | cons p rest ih =>
    obtain ⟨k, v⟩ := p
    cases v with
    | s w => exact ⟨w, rfl⟩
    | dict e =>
      simp only [List.any_cons, Bool.or_eq_true] at h
      rcases h with h | h
      · simp at h
      · exact ih h
    | other =>
      simp only [List.any_cons, Bool.or_eq_true] at h
      rcases h with h | h
      · simp at h
      · exact ih h

theorem diagram_not_term {sect : String} (h : sect ∈ diagram_sections) :
    sect ∉ term_sections := by
  fin_cases h <;> decide

theorem tree_not_term {sect : String} (h : sect ∈ tree_sections) :
    sect ∉ term_sections := by
  fin_cases h <;> decide

theorem tree_not_diagram {sect : String} (h : sect ∈ tree_sections) :
    sect ∉ diagram_sections := by
  fin_cases h <;> decide

/-! ### Claim C3 -/

/-- C3 counterexample: the claim says a placeholder with an unrecognized
key is left untouched byte for byte, but `_render` re-escapes it from the
stripped key, deleting the interior padding around the key `foo`. -/
theorem c3_counterexample :
    renderStr "\x7b\x7b foo \x7d\x7d" [] = "\x7b\x7bfoo\x7d\x7d" ∧
    renderStr "\x7b\x7b foo \x7d\x7d" [] ≠ "\x7b\x7b foo \x7d\x7d" := by
  constructor
  · rfl
  · decide

/-- C3 amended: for every template and mapping, the output is the
concatenation of the template tokens where each recognized placeholder key
receives the supplied value and each unrecognized placeholder is replaced
by the re-escaped placeholder rebuilt from its whitespace-stripped key
(byte-identical to the original text only when the key had no padding). -/
theorem c3_render_total_safe (m : Mapping) (s : List Char) :
    render m s = ((scanToks s).map (emitSpec m)).flatten := by
  rw [render_eq_scanToks]
  congr 1
  exact List.map_congr_left (fun t _ => emitTok_eq_emitSpec m t)

/-! ### Claim C4 -/

/-- C4 counterexample: a composition producing one block yields the final
text X with no trailing newline appended, contradicting the claim that the
output is terminated with exactly one trailing newline. -/
theorem c4_counterexample :
    terms [("template", YVal.s "X")] "a" = .ok (.inserted ["X"] "X") ∧
    ("X" : String).data.getLast? ≠ some '\n' := by
  constructor
  · rfl
  · decide

/-- C4 amended: the final output of every successful composition is the
blocks joined with one double-newline separator; each individual block is
trailing-trimmed, and no further trailing trim or newline is applied to
the joined text. -/
theorem c4_final_join (data : Lib) (line : String) (blocks : List String) (md : String)
    (h : terms data line = .ok (.inserted blocks md)) :
    md = pyJoin "\n\n" blocks ∧ ∀ b ∈ blocks, pyRstrip b = b := by
  unfold terms at h
  cases hp : parseArg (argOf line) with
  | nothingMode => rw [hp] at h; simp at h
  | runMode ts c =>
    rw [hp] at h
    cases hs : selectFor data (modeOf line) (flagOf line) with
    | error e => rw [hs] at h; simp at h
    | ok tmpl =>
      rw [hs] at h
      simp only [Except.ok.injEq, TermsOutcome.inserted.injEq] at h
      obtain ⟨hb, hm⟩ := h
      subst hb
      subst hm
      exact ⟨rfl, makeBlocks_rstripped tmpl ts c⟩

/-- C4 witness: the amended statement at the counterexample input. -/
theorem c4_witness :
    "X" = pyJoin "\n\n" ["X"] ∧ ∀ b ∈ (["X"] : List String), pyRstrip b = b :=
  c4_final_join [("template", YVal.s "X")] "a" ["X"] "X" (by rfl)

/-! ### Claim C6 -/

/-- C6: a request whose subject/count argument parses as a repeat count of
at most zero produces the informational no-op outcome before any template
is resolved: zero blocks, no exception, for every library. -/
theorem c6_nothing_to_insert (data : Lib) (line : String)
    (h1 : pyIsDigit (argOf line) = true) (h2 : pyToNat (argOf line) ≤ 0) :
    terms data line = .ok .nothingToInsert := by
  have hz : pyToNat (argOf line) = 0 := Nat.le_zero.mp h2
  have hp : parseArg (argOf line) = .nothingMode := by
    unfold parseArg
    rw [if_pos h1]
    simp [hz]
  unfold terms
  rw [hp]

/-- C6 witness: the line 0 with the empty library. -/
theorem c6_witness :
    pyIsDigit (argOf "0") = true ∧ pyToNat (argOf "0") ≤ 0 ∧
      terms [] "0" = .ok .nothingToInsert :=
  ⟨by decide, by decide, c6_nothing_to_insert [] "0" (by decide) (by decide)⟩

/-! ### Claim C7 -/

/-- C7 counterexample: the short-name h exists in both the template_term
and template_diagram family dicts, yet resolution succeeds and returns the
template_term section instead of failing with an ambiguity error. -/
theorem c7_counterexample :
    select_template_section
      [("template_term", YVal.dict [("h", YVal.s "TERMH")]),
       ("template_diagram", YVal.dict [("h", YVal.s "DIAGH")])] "h" = .ok "TERMH" := by
  rfl

/-- C7 amended: section short-names are partitioned into disjoint
per-family sets, and a request is resolved only against the family owning
the name, in the fixed order term, diagram, tree; a name present in
several family dicts therefore resolves to the owning family with no
ambiguity error ever raised. -/
theorem c7_section_dispatch (data : Lib) (sect : String) (v : String) :
    (sect ∈ term_sections →
      ∀ tt, lookupY data "template_term" = some (.dict tt) →
        lookupStr tt sect = some v →
        select_template_section data sect = .ok v) ∧
    (sect ∈ diagram_sections →
      ∀ td, lookupY data "template_diagram" = some (.dict td) →
        lookupStr td sect = some v →
        select_template_section data sect = .ok v) ∧
    (sect ∈ tree_sections →
      ∀ tt3, lookupY data "template_tree" = some (.dict tt3) →
        lookupStr tt3 sect = some v →
        select_template_section data sect = .ok v) := by
  refine ⟨?_, ?_, ?_⟩
  · intro hs tt htt hv
    unfold select_template_section
    rw [htt]
    simp [hs, hv]
  · intro hs td htd hv
    have hnt : sect ∉ term_sections := diagram_not_term hs
    unfold select_template_section
    rw [htd]
    cases hE : lookupY data "template_term" with
    | none => simp [hs, hv]
    | some yv =>
      cases yv with
      | s w => simp [hs, hv]
      | dict e => simp [hs, hnt, hv]
      | other => simp [hs, hv]
  · intro hs tt3 htt3 hv
    have hnt : sect ∉ term_sections := tree_not_term hs
    have hnd : sect ∉ diagram_sections := tree_not_diagram hs
    unfold select_template_section
    rw [htt3]
    cases hE : lookupY data "template_term" with
    | none =>
      cases hE2 : lookupY data "template_diagram" with
      | none => simp [hs, hv]
      | some yv2 => cases yv2 <;> simp [hs, hnd, hv]
    | some yv =>
      cases hE2 : lookupY data "template_diagram" with
      | none => cases yv <;> simp [hs, hnt, hv]
      | some yv2 => cases yv <;> cases yv2 <;> simp [hs, hnt, hnd, hv]

/-- C7 witness: the amended dispatch at a name present in two family
dicts, resolved from the owning diagram family. -/
theorem c7_witness :
    ("di" ∈ diagram_sections) ∧
    select_template_section
      [("template_term", YVal.dict [("di", YVal.s "T")]),
       ("template_diagram", YVal.dict [("di", YVal.s "D")])] "di" = .ok "D" :=
  ⟨by decide,
    (c7_section_dispatch
      [("template_term", YVal.dict [("di", YVal.s "T")]),
       ("template_diagram", YVal.dict [("di", YVal.s "D")])] "di" "D").2.1
      (by decide) _ rfl rfl⟩

/-! ### Claim C10 -/

/-- The fallback chain described by the claim: the flat template string if
present, else a stitched known sectioned family, else the first
string-typed value of the library. -/
def specFallbackChain (data : Lib) : Option String :=
  lookupStr data "template" <|> (knownStitch data <|> firstString data)

/-- C10: template-block selection never fails on a library with at least
one string-typed value: when the requested family key is absent, selection
silently returns the result of the fallback chain instead of an error. -/
theorem c10_block_selection_total (data : Lib) (hint : String)
    (habs : hasKey data hint = false)
    (hstr : data.any (fun p => match p.2 with | .s _ => true | _ => false) = true) :
    ∃ t, select_template_block data (some hint) = .ok t ∧
      specFallbackChain data = some t := by
  have hlook : lookupY data hint = none := by
    unfold hasKey at habs
    cases h : lookupY data hint
    · rfl
    · rw [h] at habs; simp at habs
  have hlstr : lookupStr data hint = none := by
    unfold lookupStr
    rw [hlook]
  unfold select_template_block specFallbackChain
  simp only [List.singleton_append, List.findSome?_cons, hlstr]
  cases hT : lookupStr data "template" with
  | some t =>
    refine ⟨t, ?_, ?_⟩
    · simp [List.findSome?, hT]
    · simp [hT]
  | none =>
    simp only [List.findSome?_cons, hT, List.findSome?_nil, hlook]
    cases hK : knownStitch data with
    | some t => exact ⟨t, by simp, by simp [hT]⟩
    | none =>
      obtain ⟨t, hF⟩ := firstString_of_any data hstr
      rw [hF]
      exact ⟨t, by simp, by simp [hT]⟩

/-- C10 witness: a family-select request for a missing template_math on a
library whose only string value is bar. -/
theorem c10_witness :
    hasKey [("foo", YVal.other), ("bar", YVal.s "B")] "template_math" = false ∧
    ∃ t, select_template_block [("foo", YVal.other), ("bar", YVal.s "B")]
        (some "template_math") = .ok t ∧
      specFallbackChain [("foo", YVal.other), ("bar", YVal.s "B")] = some t :=
  ⟨by decide,
    c10_block_selection_total [("foo", YVal.other), ("bar", YVal.s "B")]
      "template_math" (by decide) (by decide)⟩

/-! ### Claim C1 -/

/-- C1: composing a resolved template over a non-empty subject list yields
exactly one block per subject; each block is the trailing-trimmed
emission of the template tokens under that subject's mapping, and in that
emission every placeholder whose stripped key is Term or FunctionName
receives exactly the subject text. -/
theorem c1_compose_subjects (tmpl : String) (subjects : List String) (c : Nat)
    (h : subjects ≠ []) :
    (makeBlocks tmpl subjects c).length = subjects.length ∧
    (∀ i (hi : i < subjects.length),
      (makeBlocks tmpl subjects c)[i]? =
        some (pyRstrip (String.mk (((scanToks tmpl.data).map
          (emitTok (withTermMapping (subjects.get ⟨i, hi⟩)))).flatten)))) ∧
    (∀ subj raw, Tok.ph raw ∈ scanToks tmpl.data →
      pyStripChars raw = "Term".data ∨ pyStripChars raw = "FunctionName".data →
      emitTok (withTermMapping subj) (.ph raw) = subj.data) := by
  have hmk : makeBlocks tmpl subjects c =
      subjects.map (fun t => pyRstrip (renderStr tmpl (withTermMapping t))) := by
    unfold makeBlocks
    rw [if_neg h]
  refine ⟨by rw [hmk]; simp, ?_, ?_⟩
  · intro i hi
    rw [hmk]
    rw [List.getElem?_map, List.getElem?_eq_getElem hi]
    simp only [Option.map_some']
    have hix : subjects[i] = subjects.get ⟨i, hi⟩ := rfl
    rw [hix]
    congr 1
    unfold renderStr
    rw [render_eq_scanToks]
  · intro subj raw _ hkey
    show mval (withTermMapping subj) (pyStripChars raw) = subj.data
    rcases hkey with hk | hk <;>
      rw [hk] <;> simp [withTermMapping, mval, alookup]

/-- C1 witness: two subjects on a template with both placeholder spellings. -/
theorem c1_witness :
    (["Vector", "Matrix"] : List String) ≠ [] ∧
    ((makeBlocks "# \x7b\x7bTerm\x7d\x7d via \x7b\x7bFunctionName\x7d\x7d"
        ["Vector", "Matrix"] 0).length = (["Vector", "Matrix"] : List String).length ∧
    (∀ i (hi : i < (["Vector", "Matrix"] : List String).length),
      (makeBlocks "# \x7b\x7bTerm\x7d\x7d via \x7b\x7bFunctionName\x7d\x7d"
          ["Vector", "Matrix"] 0)[i]? =
        some (pyRstrip (String.mk (((scanToks
          ("# \x7b\x7bTerm\x7d\x7d via \x7b\x7bFunctionName\x7d\x7d" : String).data).map
          (emitTok (withTermMapping ((["Vector", "Matrix"] : List String).get ⟨i, hi⟩)))).flatten)))) ∧
    (∀ subj raw,
      Tok.ph raw ∈ scanToks ("# \x7b\x7bTerm\x7d\x7d via \x7b\x7bFunctionName\x7d\x7d" : String).data →
      pyStripChars raw = "Term".data ∨ pyStripChars raw = "FunctionName".data →
      emitTok (withTermMapping subj) (.ph raw) = subj.data)) :=
  ⟨by decide,
    c1_compose_subjects "# \x7b\x7bTerm\x7d\x7d via \x7b\x7bFunctionName\x7d\x7d"
      ["Vector", "Matrix"] 0 (by decide)⟩

/-! ### Claim C5 -/

/-- C5: the subject/count argument dispatch: a purely numeric argument is
read as a repeat count (falling to the no-op outcome at zero), any other
argument is split on commas into trimmed non-blank subjects, and an
argument yielding no subjects reverts to repeat count one, which produces
a single blank block. -/
theorem c5_argument_dispatch (arg : String) :
    (pyIsDigit arg = true →
      parseArg arg = (if pyToNat arg = 0 then .nothingMode
        else .runMode [] (pyToNat arg))) ∧
    (pyIsDigit arg = false → cleanSplit arg ≠ [] →
      parseArg arg = .runMode (cleanSplit arg) 0) ∧
    (pyIsDigit arg = false → cleanSplit arg = [] →
      parseArg arg = .runMode [] 1 ∧
      ∀ tmpl, makeBlocks tmpl [] 1 = [pyRstrip (renderStr tmpl blankMapping)]) := by
  refine ⟨?_, ?_, ?_⟩
  · intro h1
    unfold parseArg
    rw [if_pos h1]
    by_cases hz : pyToNat arg = 0
    · simp [hz]
    · simp [hz, Nat.pos_of_ne_zero hz, Nat.not_le_of_lt (Nat.pos_of_ne_zero hz)]
  · intro h1 h2
    unfold parseArg
    rw [if_neg (by simp [h1])]
    simp [h2]
  · intro h1 h2
    refine ⟨?_, ?_⟩
    · unfold parseArg
      rw [if_neg (by simp [h1])]
      simp [h2]
    · intro tmpl
      unfold makeBlocks
      simp

/-- C5 witness: an argument of blank comma-separated entries reverts to a
single blank block. -/
theorem c5_witness :
    pyIsDigit " , " = false ∧ cleanSplit " , " = [] ∧
    (parseArg " , " = .runMode [] 1 ∧
      ∀ tmpl, makeBlocks tmpl [] 1 = [pyRstrip (renderStr tmpl blankMapping)]) :=
  ⟨by decide, by decide, (c5_argument_dispatch " , ").2.2 (by decide) (by decide)⟩

/-! ### Claim C8 -/

/-- C8: a positive repeat count with no subjects yields exactly that many
blocks, all equal to the blank-rendered trimmed template in which every
placeholder becomes its own blank marker, and blank rendering is
idempotent on the produced blocks: re-rendering any block with the blank
mapping returns it byte-identically. -/
theorem c8_blank_blocks (tmpl : String) (count : Nat) (_hpos : 0 < count) :
    makeBlocks tmpl [] count =
      List.replicate count (pyRstrip (renderStr tmpl blankMapping)) ∧
    (makeBlocks tmpl [] count).length = count ∧
    (∀ b ∈ makeBlocks tmpl [] count, renderStr b blankMapping = b) ∧
    (∀ raw, Tok.ph raw ∈ scanToks tmpl.data →
      emitTok blankMapping (.ph raw) = braceWrap (pyStripChars raw)) := by
  have hmk : makeBlocks tmpl [] count =
      List.replicate count (pyRstrip (renderStr tmpl blankMapping)) := by
    unfold makeBlocks
    rw [if_pos rfl]
  refine ⟨hmk, by rw [hmk]; simp, ?_, ?_⟩
  · intro b hb
    rw [hmk] at hb
    have hbe := List.eq_of_mem_replicate hb
    subst hbe
    show String.mk (render blankMapping (pyRstrip (renderStr tmpl blankMapping)).data) = _
    have : (pyRstrip (renderStr tmpl blankMapping)).data =
        pyRstripChars (render blankMapping tmpl.data) := rfl
    rw [this, render_rstrip_idem blankMapping blankMapping_canon tmpl.data]
    rfl
  · intro raw _
    show mval blankMapping (pyStripChars raw) = _
    exact mval_canon blankMapping_canon _

/-- C8 witness: two blank blocks from a template with one placeholder. -/
theorem c8_witness :
    0 < 2 ∧
    (makeBlocks "- \x7b\x7bTerm\x7d\x7d " [] 2 =
      List.replicate 2 (pyRstrip (renderStr "- \x7b\x7bTerm\x7d\x7d " blankMapping)) ∧
    (makeBlocks "- \x7b\x7bTerm\x7d\x7d " [] 2).length = 2 ∧
    (∀ b ∈ makeBlocks "- \x7b\x7bTerm\x7d\x7d " [] 2, renderStr b blankMapping = b) ∧
    (∀ raw, Tok.ph raw ∈ scanToks ("- \x7b\x7bTerm\x7d\x7d " : String).data →
      emitTok blankMapping (.ph raw) = braceWrap (pyStripChars raw))) :=
  ⟨by decide, c8_blank_blocks "- \x7b\x7bTerm\x7d\x7d " 2 (by decide)⟩

/-! ### Claim C9 -/

/-- C9: trailing tc stripping is mode-independent: for every request line
whose post-head remainder has a last whitespace-separated token that
lower-cases to tc, the toggle is recorded and the subject/count argument
is the space-join of the remaining tokens, regardless of whether the head
selected a section, a family, or the default template; a subject list
whose final whitespace-separated entry is tc therefore loses that entry
even in modes where the flag has no effect. -/
theorem c9_trailing_tc_stripped (line : String) (t : String)
    (hlast : (wsSplit (restOf line)).getLast? = some t)
    (htc : lowerStr t = "tc") :
    flagOf line = true ∧
    argOf line = pyStrip (pyJoin " " (wsSplit (restOf line)).dropLast) := by
  have hne : restOf line ≠ "" := by
    intro h0
    rw [h0] at hlast
    rw [show wsSplit "" = [] from rfl] at hlast
    simp at hlast
  have hstep : stripToggle (restOf line) =
      (true, pyStrip (pyJoin " " (wsSplit (restOf line)).dropLast)) := by
    unfold stripToggle
    rw [if_neg hne]
    simp [hlast, htc]
  exact ⟨by rw [flagOf, hstep], by rw [argOf, hstep]⟩

/-- C9 witness: a section-only request whose subject argument ends in the
token tc, which is stripped although the flag cannot affect a section. -/
theorem c9_witness :
    (wsSplit (restOf "h a,b tc")).getLast? = some "tc" ∧
    lowerStr "tc" = "tc" ∧
    (flagOf "h a,b tc" = true ∧
      argOf "h a,b tc" = pyStrip (pyJoin " " (wsSplit (restOf "h a,b tc")).dropLast)) ∧
    modeOf "h a,b tc" = .sectionMode "h" ∧
    argOf "h a,b tc" = "a,b" :=
  ⟨by decide, by decide,
    c9_trailing_tc_stripped "h a,b tc" "tc" (by decide) (by decide),
    by decide, by decide⟩

/-! ### Claim C2 -/

/-- The sectioned-family resolution described by the claim: the fixed
composition order joined with a single newline, with the optional section
inserted immediately before the footer exactly when it exists as a string
section in the library and inclusion is requested under the family
policy; sections absent from the library are skipped, and a family with
no resolvable section is an error. -/
def specResolveFamily (base : List String) (footer optKey : String)
    (includeRequested : Bool) (fam : Lib) (emptyMsg : String) : Except String String :=
  let order :=
    if includeRequested && (lookupStr fam optKey).isSome then
      base.takeWhile (fun s => s ≠ footer) ++ optKey :: base.dropWhile (fun s => s ≠ footer)
    else base
  let parts := order.filterMap (lookupStr fam)
  if parts = [] then .error emptyMsg else .ok (pyJoin "\n" parts)

theorem term_splice_eval :
    spliceBefore ["h", "ex", "n", "fo"] "fo" "tc" = ["h", "ex", "n", "tc", "fo"] := by
  decide

theorem term_spec_order_eval :
    (["h", "ex", "n", "fo"] : List String).takeWhile (fun s => s ≠ "fo") ++
      "tc" :: (["h", "ex", "n", "fo"] : List String).dropWhile (fun s => s ≠ "fo") =
      ["h", "ex", "n", "tc", "fo"] := by
  decide

theorem diagram_splice_eval :
    spliceBefore ["h2", "di", "n2", "ex2", "fo2"] "fo2" "tc2" =
      ["h2", "di", "n2", "ex2", "tc2", "fo2"] := by
  decide

theorem diagram_spec_order_eval :
    (["h2", "di", "n2", "ex2", "fo2"] : List String).takeWhile (fun s => s ≠ "fo2") ++
      "tc2" :: (["h2", "di", "n2", "ex2", "fo2"] : List String).dropWhile (fun s => s ≠ "fo2") =
      ["h2", "di", "n2", "ex2", "tc2", "fo2"] := by
  decide

theorem tree_splice_eval :
    spliceBefore ["trh", "trd", "trp", "tra", "tree", "trf"] "trf" "trt" =
      ["trh", "trd", "trp", "tra", "tree", "trt", "trf"] := by
  decide

theorem tree_spec_order_eval :
    (["trh", "trd", "trp", "tra", "tree", "trf"] : List String).takeWhile
        (fun s => s ≠ "trf") ++
      "trt" :: (["trh", "trd", "trp", "tra", "tree", "trf"] : List String).dropWhile
        (fun s => s ≠ "trf") =
      ["trh", "trd", "trp", "tra", "tree", "trt", "trf"] := by
  decide

/-- C2: each sectioned family resolves to its fixed composition order
joined with one newline, with the optional section inserted immediately
before the footer exactly when it exists as a string section and inclusion
is requested under the family policy: the term family requires the
explicit tc flag, while the diagram and tree families always include
tc2 and trt when present. -/
theorem c2_sectioned_families :
    (∀ (tt : Lib) (flag : Bool),
      resolveTermFamily tt flag =
        specResolveFamily ["h", "ex", "n", "fo"] "fo" "tc" flag tt
          "template_term is empty or missing sections") ∧
    (∀ td : Lib,
      resolveDiagramFamily td =
        specResolveFamily ["h2", "di", "n2", "ex2", "fo2"] "fo2" "tc2" true td
          "template_diagram is empty or missing sections") ∧
    (∀ tt3 : Lib,
      resolveTreeFamily tt3 =
        specResolveFamily ["trh", "trd", "trp", "tra", "tree", "trf"] "trf" "trt" true tt3
          "template_tree is empty or missing sections") := by
  refine ⟨?_, ?_, ?_⟩
  · intro tt flag
    unfold resolveTermFamily specResolveFamily
    simp only [term_splice_eval, term_spec_order_eval]
    cases flag with
    | false => simp
    | true =>
      cases hE : lookupY tt "tc" with
      | none =>
        have h1 : hasKey tt "tc" = false := by unfold hasKey; rw [hE]; rfl
        have h2 : lookupStr tt "tc" = none := by unfold lookupStr; rw [hE]
        simp [h1, h2]
      | some yv =>
        have h1 : hasKey tt "tc" = true := by unfold hasKey; rw [hE]; rfl
        cases yv with
        | s v =>
          have h2 : lookupStr tt "tc" = some v := by unfold lookupStr; rw [hE]
          simp only [h1, h2, Bool.and_true, Option.isSome_some, Bool.true_and, if_pos]
        | dict e =>
          have h2 : lookupStr tt "tc" = none := by unfold lookupStr; rw [hE]
          have hfm : List.filterMap (lookupStr tt) ["h", "ex", "n", "tc", "fo"] =
              List.filterMap (lookupStr tt) ["h", "ex", "n", "fo"] := by
            simp [List.filterMap_cons, h2]
          simp only [h1, h2, Bool.and_true, Option.isSome_none, Bool.true_and,
            Bool.and_false, if_neg, Bool.false_eq_true, not_false_eq_true, if_pos, hfm]
        | other =>
          have h2 : lookupStr tt "tc" = none := by unfold lookupStr; rw [hE]
          have hfm : List.filterMap (lookupStr tt) ["h", "ex", "n", "tc", "fo"] =
              List.filterMap (lookupStr tt) ["h", "ex", "n", "fo"] := by
            simp [List.filterMap_cons, h2]
          simp only [h1, h2, Bool.and_true, Option.isSome_none, Bool.true_and,
            Bool.and_false, if_neg, Bool.false_eq_true, not_false_eq_true, if_pos, hfm]
  · intro td
    unfold resolveDiagramFamily specResolveFamily
    simp only [diagram_splice_eval, diagram_spec_order_eval]
    cases hE : lookupY td "tc2" with
    | none =>
      have h1 : hasKey td "tc2" = false := by unfold hasKey; rw [hE]; rfl
      have h2 : lookupStr td "tc2" = none := by unfold lookupStr; rw [hE]
      simp [h1, h2]
    | some yv =>
      have h1 : hasKey td "tc2" = true := by unfold hasKey; rw [hE]; rfl
      cases yv with
      | s v =>
        have h2 : lookupStr td "tc2" = some v := by unfold lookupStr; rw [hE]
        simp only [h1, h2, Option.isSome_some, Bool.true_and, if_pos]
      | dict e =>
        have h2 : lookupStr td "tc2" = none := by unfold lookupStr; rw [hE]
        have hfm : List.filterMap (lookupStr td) ["h2", "di", "n2", "ex2", "tc2", "fo2"] =
            List.filterMap (lookupStr td) ["h2", "di", "n2", "ex2", "fo2"] := by
          simp [List.filterMap_cons, h2]
        simp only [h1, h2, Option.isSome_none, Bool.true_and, if_neg,
          Bool.false_eq_true, not_false_eq_true, if_pos, hfm]
      | other =>
        have h2 : lookupStr td "tc2" = none := by unfold lookupStr; rw [hE]
        have hfm : List.filterMap (lookupStr td) ["h2", "di", "n2", "ex2", "tc2", "fo2"] =
            List.filterMap (lookupStr td) ["h2", "di", "n2", "ex2", "fo2"] := by
          simp [List.filterMap_cons, h2]
        simp only [h1, h2, Option.isSome_none, Bool.true_and, if_neg,
          Bool.false_eq_true, not_false_eq_true, if_pos, hfm]
  · intro tt3
    unfold resolveTreeFamily specResolveFamily
    simp only [tree_splice_eval, tree_spec_order_eval]
    cases hE : lookupY tt3 "trt" with
    | none =>
      have h1 : hasKey tt3 "trt" = false := by unfold hasKey; rw [hE]; rfl
      have h2 : lookupStr tt3 "trt" = none := by unfold lookupStr; rw [hE]
      simp [h1, h2]
    | some yv =>
      have h1 : hasKey tt3 "trt" = true := by unfold hasKey; rw [hE]; rfl
      cases yv with
      | s v =>
        have h2 : lookupStr tt3 "trt" = some v := by unfold lookupStr; rw [hE]
        simp only [h1, h2, Option.isSome_some, Bool.true_and, if_pos]
      | dict e =>
        have h2 : lookupStr tt3 "trt" = none := by unfold lookupStr; rw [hE]
        have hfm : List.filterMap (lookupStr tt3)
              ["trh", "trd", "trp", "tra", "tree", "trt", "trf"] =
            List.filterMap (lookupStr tt3) ["trh", "trd", "trp", "tra", "tree", "trf"] := by
          simp [List.filterMap_cons, h2]
        simp only [h1, h2, Option.isSome_none, Bool.true_and, if_neg,
          Bool.false_eq_true, not_false_eq_true, if_pos, hfm]
      | other =>
        have h2 : lookupStr tt3 "trt" = none := by unfold lookupStr; rw [hE]
        have hfm : List.filterMap (lookupStr tt3)
              ["trh", "trd", "trp", "tra", "tree", "trt", "trf"] =
            List.filterMap (lookupStr tt3) ["trh", "trd", "trp", "tra", "tree", "trf"] := by
          simp [List.filterMap_cons, h2]
        simp only [h1, h2, Option.isSome_none, Bool.true_and, if_neg,
          Bool.false_eq_true, not_false_eq_true, if_pos, hfm]

end JupyterHelpers
